import Mathlib

set_option maxRecDepth 40000

/-!
Shallow embedding of the ligero-prover Rust SDK (src/sdk/rust/src) and proofs
about its oblivious-arithmetic core.

Conventions of the embedding:
* A backend field element is modelled by its value, a natural number reduced
  modulo the BN254 scalar prime `p`; the backend arithmetic host calls
  (bn254fr_addmod, bn254fr_submod, bn254fr_mulmod, ...) are modelled by the
  corresponding reduced operations on naturals.
* An operation that can emit a failing assertion (assert_one on a host
  comparison, bn254fr_assert_equal / assert_add / assert_mul on concrete
  values, a range-constrained bit decomposition) is modelled as a pair
  `value × Bool`; the Bool is the conjunction, in program order, of the
  checks performed, and the run halts exactly when the Bool is false.
  Assertions that compare a freshly computed backend result with the very
  expression that produced it (for instance assert_add(out, a, b) right after
  out := addmod(a, b), or the equality constraint emitted when cloning a
  constrained element) are identically true on values and are elided;
  cross-checks relating distinct expressions (the assert_add emitted by
  submod_checked, the assert_mul emitted by divmod_checked, the boolean check
  of mux, range checks of to_bits) are kept.
* Backend routines whose code is not part of src/ (bit decomposition and
  recomposition, the wide integer product, normalized 512-bit division, the
  uint256 modular-inverse candidate, the Poseidon2 round-constant table) are
  modelled from the specification text; each such definition carries a doc
  comment starting with "Modelled from the spec:".
-/

namespace Ligero

/-- Modulus of the BN254 scalar field used by the Ligetron backend. -/
def p : Nat := 21888242871839275222246405745257275088548364400416034343698204186575808495617

/-- Backend bn254fr_addmod on values: out = a + b mod p. -/
def fadd (a b : Nat) : Nat := (a + b) % p

/-- Backend bn254fr_submod on values: out = a - b mod p. -/
def fsub (a b : Nat) : Nat := (a + (p - b % p)) % p

/-- Backend bn254fr_mulmod on values: out = a * b mod p. -/
def fmul (a b : Nat) : Nat := a * b % p

/-- Backend bn254fr_negmod on values: out = -a mod p. -/
def fneg (a : Nat) : Nat := (p - a % p) % p

/-- Fast modular exponentiation, fuelled by the bit length of the exponent.
The fuel 256 covers every exponent below 2^256, in particular p - 2. -/
def fpowAux : Nat → Nat → Nat → Nat → Nat
  | 0, _, _, acc => acc
  | fuel + 1, b, e, acc =>
    if e = 0 then acc
    else fpowAux fuel (fmul b b) (e / 2) (if e % 2 = 1 then fmul acc b else acc)

/-- Backend bn254fr_powmod on values. -/
def fpow (b e : Nat) : Nat := fpowAux 256 (b % p) e 1

/-- Extended Euclid with the Bezout coefficient of the first argument tracked
modulo p.  Invariant: r0 = a * s0 (mod p) and r1 = a * s1 (mod p); on
termination the pair (gcd, coefficient) is returned.  The fuel 1000 exceeds
the worst-case iteration count for inputs below 2^256. -/
def xgcdAux : Nat → Nat → Nat → Nat → Nat → Nat × Nat
  | 0, r0, _, s0, _ => (r0, s0)
  | fuel + 1, r0, r1, s0, s1 =>
    if r1 = 0 then (r0, s0)
    else xgcdAux fuel r1 (r0 % r1) s1 (fsub s0 (fmul (r0 / r1) s1))

/-- Backend bn254fr_invmod on values: the inverse of a nonzero element of the
prime field (the Bezout coefficient of a in gcd(a, p) = 1); maps 0 to 0. -/
def finv (a : Nat) : Nat :=
  if a % p = 0 then 0 else (xgcdAux 1000 (a % p) p 1 0).2

/-- Backend bn254fr_divmod on values: out = a / b mod p. -/
def fdiv (a b : Nat) : Nat := fmul a (finv b)

-- ============= Reduction facts and the cast to ZMod p =============

instance : NeZero p := ⟨by decide⟩

/-- View of a model value in the ring of integers modulo p. -/
def toZ (a : Nat) : ZMod p := (a : ZMod p)

-- ============= Host bit decomposition =============

/-- Value of bit i of x, LSB first. -/
def bit (x i : Nat) : Nat := x / 2 ^ i % 2

/-- Modelled from the spec: the backend routine bn254fr_to_bits_checked
decomposes a field element into count binary-valued elements, LSB first, with
a constraint that the bits recompose the value; the constraint is satisfiable
exactly when the value fits in count bits. -/
def to_bits_core (x count : Nat) : List Nat := (List.range count).map (fun i => bit x i)

/-- Model of Bn254Fr::to_bits: the guard on count mirrors the Rust wrapper
(assert_one(0) halts the run and a vector of fresh elements is returned). -/
def to_bits (x count : Nat) : List Nat × Bool :=
  if count < 1 ∨ 254 < count then (List.replicate count 0, false)
  else (to_bits_core x count, decide (x < 2 ^ count))

/-- Modelled from the spec: the backend routine bn254fr_from_bits_checked
recomposes a field element from binary-valued elements, LSB first, asserting
that every input is a bit. -/
def from_bits_core (l : List Nat) : Nat := l.foldr (fun b acc => b + 2 * acc) 0

/-- Model of Bn254Fr::from_bits_checked, with the Rust wrapper's count guard. -/
def from_bits_checked (l : List Nat) : Nat × Bool :=
  if l.length < 1 ∨ 254 < l.length then (0, false)
  else (from_bits_core l, l.all (fun b => decide (b ≤ 1)))

-- ============= Oblivious selection (bn254fr.rs) =============

/-- Model of bn254fr mux: out = a0 + cond * (a1 - a0); the run asserts
cond <= 1 first, and submod_checked emits its recomposition cross-check. -/
def mux (cond a0 a1 : Nat) : Nat × Bool :=
  let tmp := fsub a1 a0
  let okSub := decide (a1 % p = fadd tmp a0)
  (fadd a0 (fmul tmp cond), decide (cond ≤ 1) && okSub)

/-- Model of bn254fr mux2: nested 2-way muxes over two selector bits. -/
def mux2 (s0 s1 a0 a1 a2 a3 : Nat) : Nat × Bool :=
  let m1 := mux s0 a0 a1
  let m2 := mux s0 a2 a3
  let m3 := mux s1 m1.1 m2.1
  (m3.1, decide (s0 ≤ 1) && decide (s1 ≤ 1) && m1.2 && m2.2 && m3.2)

-- ============= Vectorized field elements (vbn254fr.rs) =============

/-- A vectorized field element is the list of its per-lane values. -/
def VFr := List Nat

/-- Backend vbn254fr_addmod: lockstep lane-wise addition. -/
def addmod_vec (x y : List Nat) : List Nat := List.zipWith fadd x y

/-- Backend vbn254fr_submod: lockstep lane-wise subtraction. -/
def submod_vec (x y : List Nat) : List Nat := List.zipWith fsub x y

/-- Backend vbn254fr_mulmod: lockstep lane-wise multiplication. -/
def mulmod_vec (x y : List Nat) : List Nat := List.zipWith fmul x y

/-- Model of vbn254fr mux_vec.  The vector backend calls emit arithmetic
constraints on their own outputs but no value assertion, so the Bool
component (true) records that no failing check is ever performed. -/
def mux_vec (cond a0 a1 : List Nat) : List Nat × Bool :=
  let temp1 := submod_vec a1 a0
  let temp2 := mulmod_vec cond temp1
  (addmod_vec a0 temp2, true)

/-- Model of vbn254fr mux2_vec: nested mux_vec, again with no assertion. -/
def mux2_vec (s0 s1 a0 a1 a2 a3 : List Nat) : List Nat × Bool :=
  let t1 := mux_vec s0 a0 a1
  let t2 := mux_vec s0 a2 a3
  let out := mux_vec s1 t1.1 t2.1
  (out.1, t1.2 && t2.2 && out.2)

/-- Per-lane selection formula a0 + cond * (a1 - a0). -/
def lane_select (c x y : Nat) : Nat := fadd x (fmul c (fsub y x))

/-- Three-list zip used to state the per-lane behaviour of mux_vec. -/
def zipWith3 (f : Nat → Nat → Nat → Nat) : List Nat → List Nat → List Nat → List Nat
  | c :: cs, x :: xs, y :: ys => f c x y :: zipWith3 f cs xs ys
  | _, _, _ => []

-- ============= Baby Jubjub curve points (babyjubjub.rs) =============

/-- Twisted Edwards coefficient a of Baby Jubjub (COEF_A). -/
def COEF_A : Nat := 168700

/-- Twisted Edwards coefficient d of Baby Jubjub (COEF_D). -/
def COEF_D : Nat := 168696

/-- A curve point: an ordered pair of field-element values. -/
structure Pt where
  x : Nat
  y : Nat
deriving DecidableEq, Repr

/-- JubjubPoint::identity, the Twisted Edwards identity (0, 1). -/
def identity : Pt := ⟨0, 1⟩

/-- Model of JubjubPoint::mux2: a 4-way select applied to x then y. -/
def pt_mux2 (s0 s1 : Nat) (b0 b1 b2 b3 : Pt) : Pt × Bool :=
  let mx := mux2 s0 s1 b0.x b1.x b2.x b3.x
  let my := mux2 s0 s1 b0.y b1.y b2.y b3.y
  (⟨mx.1, my.1⟩, mx.2 && my.2)

/-- Model of JubjubPoint::twisted_edward_add.  The two divmod_checked calls
keep their assert_mul cross-checks and the two submod_checked calls keep
their assert_add cross-checks; all other emitted constraints restate the
value just computed and are elided. -/
def twisted_edward_add (a b : Pt) : Pt × Bool :=
  let lambda := fmul (fmul (fmul (fmul COEF_D a.x) a.y) b.x) b.y
  let t1 := fmul a.x b.y
  let t2 := fmul a.y b.x
  let t3 := fadd 1 lambda
  let t1a := fadd t1 t2
  let result_x := fdiv t1a t3
  let okDiv1 := decide (t1a % p = fmul result_x t3)
  let u1 := fmul a.y b.y
  let u2 := fmul a.x b.x
  let u2a := fmul COEF_A u2
  let u3 := fsub 1 lambda
  let okSub1 := decide (1 % p = fadd u3 lambda)
  let v := fsub u1 u2a
  let okSub2 := decide (u1 % p = fadd v u2a)
  let result_y := fdiv v u3
  let okDiv2 := decide (v % p = fmul result_y u3)
  (⟨result_x, result_y⟩, okDiv1 && okSub1 && okSub2 && okDiv2)

/-- Model of JubjubPoint::to_montgomery.  The value computed for the second
coordinate is (1 + y) / ((1 - y) * x). -/
def to_montgomery (pt : Pt) : Pt × Bool :=
  let one_plus_y := fadd 1 pt.y
  let one_minus_y := fsub 1 pt.y
  let okSub := decide (1 % p = fadd one_minus_y pt.y)
  let mx := fdiv one_plus_y one_minus_y
  let okDiv1 := decide (one_plus_y % p = fmul mx one_minus_y)
  let temp := fmul one_minus_y pt.x
  let my := fdiv one_plus_y temp
  let okDiv2 := decide (one_plus_y % p = fmul my temp)
  (⟨mx, my⟩, okSub && okDiv1 && okDiv2)

/-- Model of JubjubPoint::to_twisted_edward: x = u / v, y = (u - 1) / (u + 1). -/
def to_twisted_edward (pt : Pt) : Pt × Bool :=
  let tx := fdiv pt.x pt.y
  let okDiv1 := decide (pt.x % p = fmul tx pt.y)
  let ty1 := fsub pt.x 1
  let okSub := decide (pt.x % p = fadd ty1 (1 % p))
  let temp := fadd pt.x 1
  let ty := fdiv ty1 temp
  let okDiv2 := decide (ty1 % p = fmul ty temp)
  (⟨tx, ty⟩, okDiv1 && okSub && okDiv2)

/-- Index list of the Rust loop `for i in (0..251).step_by(2).rev()` in
JubjubPoint::scalar_mul: the even numbers 0, 2, ..., 250 in reverse. -/
def smIndices : List Nat := ((List.range 126).map (fun k => 2 * k)).reverse

/-- Model of JubjubPoint::scalar_mul: 2-bit windowed ladder over the window
precomputed as 0, P, 2P = P+P, 3P = P + 2P, seeded from bits 252 and 253 and
folding over smIndices.  The Bool accumulates every check in program order. -/
def scalar_mul (P : Pt) (x : Nat) : Pt × Bool :=
  let w0 := identity
  let w1 := P
  let w2p := twisted_edward_add P P
  let w3p := twisted_edward_add w1 w2p.1
  let w2 := w2p.1
  let w3 := w3p.1
  let bitsOk := decide (x < 2 ^ 254)
  let seed := pt_mux2 (bit x 252) (bit x 253) w0 w1 w2 w3
  smIndices.foldl
    (fun acc i =>
      let d1 := twisted_edward_add acc.1 acc.1
      let d2 := twisted_edward_add d1.1 d1.1
      let t := pt_mux2 (bit x i) (bit x (i + 1)) w0 w1 w2 w3
      let s := twisted_edward_add d2.1 t.1
      (s.1, acc.2 && d1.2 && d2.2 && t.2 && s.2))
    (seed.1, w2p.2 && w3p.2 && bitsOk && seed.2)

/-- One loop iteration of scalar_mul, instrumented to append the operand
pairs of its three twisted_edward_add calls (double, double, window add). -/
def trace_step (P : Pt) (x : Nat) (st : Pt × List (Pt × Pt)) (i : Nat) :
    Pt × List (Pt × Pt) :=
  let w1 := P
  let w2 := (twisted_edward_add P P).1
  let w3 := (twisted_edward_add w1 w2).1
  let sel := (pt_mux2 (bit x i) (bit x (i + 1)) identity w1 w2 w3).1
  let acc := st.1
  let d1 := (twisted_edward_add acc acc).1
  let d2 := (twisted_edward_add d1 d1).1
  ((twisted_edward_add d2 sel).1, st.2 ++ [(acc, acc), (d1, d1), (d2, sel)])

/-- Operand trace of scalar_mul: the list of argument pairs passed to
twisted_edward_add, in execution order, emitted along the same fold the
computation performs (two window-precomputation additions, then per loop
iteration two doublings and one window addition). -/
def add_trace (P : Pt) (x : Nat) : List (Pt × Pt) :=
  let w1 := P
  let w2 := (twisted_edward_add P P).1
  let w3 := (twisted_edward_add w1 w2).1
  (smIndices.foldl (trace_step P x)
    ((pt_mux2 (bit x 252) (bit x 253) identity w1 w2 w3).1, [(P, P), (w1, w2)])).2

/-- Ladder written from the amended specification text: precompute the
window 0, P, 2P, 3P; seed the accumulator with the 4-way selection driven by
the two most significant of the 254 scalar bits; then for each remaining bit
pair, most significant pair first (126 pairs, indexes 250, 248, ..., 0),
double the accumulator twice and add the selected window entry. -/
def windowed_ladder (P : Pt) (x : Nat) : Pt :=
  let w0 := identity
  let w1 := P
  let w2 := (twisted_edward_add P P).1
  let w3 := (twisted_edward_add P (twisted_edward_add P P).1).1
  let sel := fun i => (pt_mux2 (bit x i) (bit x (i + 1)) w0 w1 w2 w3).1
  ((List.range 126).map (fun k => 250 - 2 * k)).foldl
    (fun acc i =>
      let acc1 := (twisted_edward_add acc acc).1
      let acc2 := (twisted_edward_add acc1 acc1).1
      (twisted_edward_add acc2 (sel i)).1)
    (sel 252)

-- ============= EdDSA (eddsa.rs) =============

/-- GENERATOR_X of eddsa.rs. -/
def GENERATOR_X : Nat :=
  995203441582195749578291179787384436505546430278305826713579947235728471134

/-- GENERATOR_Y of eddsa.rs. -/
def GENERATOR_Y : Nat :=
  5472060717959818805561601436314318772137091100104008585924551046643952123905

/-- EddsaSignature::generator. -/
def generator : Pt := ⟨GENERATOR_X, GENERATOR_Y⟩

/-- Model of EddsaSignature::verify for a signature (r, s), a public key and
a message (the challenge): compute S·G, compute challenge·PublicKey, add R,
then assert equality coordinate-wise.  The result is the whole-run success
flag: the interior checks of both ladders and of the final addition, then
the two assert_equal comparisons. -/
def verify (r : Pt) (s : Nat) (pk : Pt) (msg : Nat) : Bool :=
  let sg := scalar_mul generator s
  let pm := scalar_mul pk msg
  let pa := twisted_edward_add r pm.1
  sg.2 && pm.2 && pa.2 && decide (sg.1.x = pa.1.x) && decide (sg.1.y = pa.1.y)

-- ============= Uint256 (uint256.rs): data model and mux =============

/-- A 256-bit unsigned integer: four 64-bit limbs stored as field elements,
limb 0 least significant. -/
structure U256 where
  l0 : Nat
  l1 : Nat
  l2 : Nat
  l3 : Nat
deriving DecidableEq, Repr

/-- Numeric value of a Uint256. -/
def U256.val (u : U256) : Nat :=
  u.l0 + 2 ^ 64 * u.l1 + 2 ^ 128 * u.l2 + 2 ^ 192 * u.l3

/-- Range invariant of a Uint256 whose limbs have been range-checked. -/
def U256.inRange (u : U256) : Prop :=
  u.l0 < 2 ^ 64 ∧ u.l1 < 2 ^ 64 ∧ u.l2 < 2 ^ 64 ∧ u.l3 < 2 ^ 64

instance (u : U256) : Decidable u.inRange := by
  unfold U256.inRange; infer_instance

/-- Model of uint256 mux: the scalar bn254fr mux applied limb-wise with the
same selector; the first Uint256 argument is passed in position a0 and the
second in position a1. -/
def u256_mux (cond : Nat) (a b : U256) : U256 × Bool :=
  let m0 := mux cond a.l0 b.l0
  let m1 := mux cond a.l1 b.l1
  let m2 := mux cond a.l2 b.l2
  let m3 := mux cond a.l3 b.l3
  (⟨m0.1, m1.1, m2.1, m3.1⟩, m0.2 && m1.2 && m2.2 && m3.2)

-- ============= Poseidon2 (poseidon2.rs) =============

/-- Modelled from the spec: POSEIDON2_BN254_RP = 56 (the module
poseidon2_constant.rs holding this constant and the round-constant table is
not part of src/). -/
def POSEIDON2_BN254_RP : Nat := 56

/-- Poseidon2Context::pow5: x^2, then x^4, then x^4 * x. -/
def pow5 (x : Nat) : Nat := fmul (fmul (fmul x x) (fmul x x)) x

/-- Poseidon2Context::multiply_external_mds: temp = s0 + s1; s0 += temp;
s1 += temp. -/
def multiply_external_mds (s : Nat × Nat) : Nat × Nat :=
  let temp := fadd s.1 s.2
  (fadd s.1 temp, fadd s.2 temp)

/-- Poseidon2Context::multiply_internal_mds: temp = s0 + s1; s0 += temp;
temp += s1; s1 += temp. -/
def multiply_internal_mds (s : Nat × Nat) : Nat × Nat :=
  let temp := fadd s.1 s.2
  let s0 := fadd s.1 temp
  let temp2 := fadd temp s.2
  (s0, fadd s.2 temp2)

/-- Poseidon2Context::add_round_constants (full rounds): both slots. -/
def add_round_constants (rc : Nat → Nat) (round : Nat) (s : Nat × Nat) : Nat × Nat :=
  (fadd s.1 (rc (round * 2)), fadd s.2 (rc (round * 2 + 1)))

/-- Poseidon2Context::add_round_constants_slot0: slot 0 only. -/
def add_round_constants_slot0 (rc : Nat → Nat) (round : Nat) (s : Nat × Nat) :
    Nat × Nat :=
  (fadd s.1 (rc (round * 2)), s.2)

/-- Poseidon2Context::sbox_full: 5th power on both slots. -/
def sbox_full (s : Nat × Nat) : Nat × Nat := (pow5 s.1, pow5 s.2)

/-- Poseidon2Context::sbox_slot0: 5th power on slot 0 only. -/
def sbox_slot0 (s : Nat × Nat) : Nat × Nat := (pow5 s.1, s.2)

/-- One full round of Poseidon2Context::permute. -/
def full_round (rc : Nat → Nat) (round : Nat) (s : Nat × Nat) : Nat × Nat :=
  multiply_external_mds (sbox_full (add_round_constants rc round s))

/-- One partial round of Poseidon2Context::permute. -/
def partial_round (rc : Nat → Nat) (round : Nat) (s : Nat × Nat) : Nat × Nat :=
  multiply_internal_mds (sbox_slot0 (add_round_constants_slot0 rc round s))

/-- Model of Poseidon2Context::permute, parameterized by the round-constant
table (a flat index to value map).  The code first multiplies the state by
the external MDS matrix, then runs 4 full rounds, R_P partial rounds, and 4
more full rounds with a running round counter. -/
def permute (rc : Nat → Nat) (s : Nat × Nat) : Nat × Nat :=
  let s1 := multiply_external_mds s
  let s2 := (List.range 4).foldl (fun st k => full_round rc k st) s1
  let s3 := (List.range POSEIDON2_BN254_RP).foldl
    (fun st k => partial_round rc (4 + k) st) s2
  (List.range 4).foldl (fun st k => full_round rc (4 + POSEIDON2_BN254_RP + k) st) s3

/-- Multiplication by the matrix 2 1 / 1 2, as the claim words it. -/
def external_matrix (s : Nat × Nat) : Nat × Nat :=
  (fadd (fmul 2 s.1) s.2, fadd s.1 (fmul 2 s.2))

/-- Multiplication by the matrix 2 1 / 1 3, as the claim words it. -/
def internal_matrix (s : Nat × Nat) : Nat × Nat :=
  (fadd (fmul 2 s.1) s.2, fadd s.1 (fmul 3 s.2))

/-- Full round as the claim words it: constants to both slots, both slots to
the 5th power, state mixed by the external matrix. -/
def claim_full_round (rc : Nat → Nat) (round : Nat) (s : Nat × Nat) : Nat × Nat :=
  external_matrix (fpow (fadd s.1 (rc (round * 2))) 5, fpow (fadd s.2 (rc (round * 2 + 1))) 5)

/-- Partial round as the claim words it: constant to slot 0 only, slot 0 to
the 5th power, state mixed by the internal matrix. -/
def claim_partial_round (rc : Nat → Nat) (round : Nat) (s : Nat × Nat) : Nat × Nat :=
  internal_matrix (fpow (fadd s.1 (rc (round * 2))) 5, s.2)

/-- The permutation exactly as the claim states it: 4 full rounds, then 56
partial rounds, then 4 more full rounds, with no other linear layer. -/
def claim_permute (rc : Nat → Nat) (s : Nat × Nat) : Nat × Nat :=
  let s2 := (List.range 4).foldl (fun st k => claim_full_round rc k st) s
  let s3 := (List.range 56).foldl (fun st k => claim_partial_round rc (4 + k) st) s2
  (List.range 4).foldl (fun st k => claim_full_round rc (4 + 56 + k) st) s3

/-- All-zero round-constant table used for the concrete comparison. -/
def rc_zero : Nat → Nat := fun _ => 0

-- ============= Raw-operation state machine (bn254fr.rs macros) =============

/-- Handle-and-flag view of one Bn254Fr: the opaque backend handle plus the
constrained flag private to the element. -/
structure Elem where
  handle : Nat
  constrained : Bool
deriving DecidableEq, Repr

/-- The backend store: the next fresh handle, the slot contents (none for a
slot that is unallocated or freed), and the log of value writes performed. -/
structure BackendSt where
  next : Nat
  mem : Nat → Option Nat
  writes : List (Nat × Nat)

/-- bn254fr_alloc: hands out the next fresh handle, initialized to 0. -/
def st_alloc (s : BackendSt) : Nat × BackendSt :=
  (s.next,
   { next := s.next + 1,
     mem := fun h => if h = s.next then some 0 else s.mem h,
     writes := s.writes })

/-- A backend arithmetic call writing value v into slot h (logged). -/
def st_write (s : BackendSt) (h : Nat) (v : Nat) : BackendSt :=
  { s with
    mem := fun h2 => if h2 = h then some v else s.mem h2,
    writes := s.writes ++ [(h, v)] }

/-- bn254fr_free: releases a slot. -/
def st_free (s : BackendSt) (h : Nat) : BackendSt :=
  { s with mem := fun h2 => if h2 = h then none else s.mem h2 }

/-- Value currently stored in slot h. -/
def st_read (s : BackendSt) (h : Nat) : Nat := (s.mem h).getD 0

/-- Model of the bn254fr_binary macro for a raw (non-checked) operation op:
if the destination is bound, allocate a temporary, compute into the
temporary, swap the temporary's handle into the destination, mark the
destination fresh, and drop the temporary (freeing the old destination
handle it now holds); if the destination is fresh, compute straight into
it. -/
def bn254fr_binary (op : Nat → Nat → Nat) (s : BackendSt) (out a b : Elem) :
    BackendSt × Elem :=
  if out.constrained then
    let alloc := st_alloc s
    let s2 := st_write alloc.2 alloc.1
      (op (st_read alloc.2 a.handle) (st_read alloc.2 b.handle))
    (st_free s2 out.handle, ⟨alloc.1, false⟩)
  else
    (st_write s out.handle (op (st_read s a.handle) (st_read s b.handle)), out)

/-- Model of the bn254fr_unary macro, same discipline as bn254fr_binary. -/
def bn254fr_unary (op : Nat → Nat) (s : BackendSt) (out a : Elem) :
    BackendSt × Elem :=
  if out.constrained then
    let alloc := st_alloc s
    let s2 := st_write alloc.2 alloc.1 (op (st_read alloc.2 a.handle))
    (st_free s2 out.handle, ⟨alloc.1, false⟩)
  else
    (st_write s out.handle (op (st_read s a.handle)), out)

-- ============= Uint256 carry arithmetic (uint256.rs) =============

/-- The constant 2^64 used by sub_limb_with_borrow. -/
def two_pow_64 : Nat := 18446744073709551616

/-- Model of add_limb_with_carry: sum = a + b + carry_in, decomposed into 65
bits; the carry is bit 64 and the result recomposes bits 0..63. -/
def add_limb_with_carry (a b cin : Nat) : (Nat × Nat) × Bool :=
  let sum := fadd (fadd a b) cin
  let bits := to_bits sum 65
  let carry_out := bits.1.getD 64 0
  let res := from_bits_checked (bits.1.take 64)
  ((res.1, carry_out), bits.2 && res.2)

/-- Model of sub_limb_with_borrow: sum = 2^64 + a - b - borrow_in, decomposed
into 65 bits; the borrow is 1 - bit 64 and the result recomposes bits
0..63.  The submod_checked cross-checks are kept. -/
def sub_limb_with_borrow (a b bin : Nat) : (Nat × Nat) × Bool :=
  let sum0 := fadd two_pow_64 a
  let sum1 := fsub sum0 b
  let okS1 := decide (sum0 % p = fadd sum1 b)
  let sum := fsub sum1 bin
  let okS2 := decide (sum1 % p = fadd sum bin)
  let bits := to_bits sum 65
  let borrow_out := fsub 1 (bits.1.getD 64 0)
  let okS3 := decide (1 % p = fadd borrow_out (bits.1.getD 64 0))
  let res := from_bits_checked (bits.1.take 64)
  ((res.1, borrow_out), okS1 && okS2 && bits.2 && okS3 && res.2)

/-- Model of add_cc: ripple carry across the 4 limbs, carry-in 0. -/
def add_cc (a b : U256) : (U256 × Nat) × Bool :=
  let s0 := add_limb_with_carry a.l0 b.l0 0
  let s1 := add_limb_with_carry a.l1 b.l1 s0.1.2
  let s2 := add_limb_with_carry a.l2 b.l2 s1.1.2
  let s3 := add_limb_with_carry a.l3 b.l3 s2.1.2
  ((⟨s0.1.1, s1.1.1, s2.1.1, s3.1.1⟩, s3.1.2), s0.2 && s1.2 && s2.2 && s3.2)

/-- Model of sub_cc: ripple borrow across the 4 limbs, borrow-in 0; the
final borrow is returned in the carry position. -/
def sub_cc (a b : U256) : (U256 × Nat) × Bool :=
  let s0 := sub_limb_with_borrow a.l0 b.l0 0
  let s1 := sub_limb_with_borrow a.l1 b.l1 s0.1.2
  let s2 := sub_limb_with_borrow a.l2 b.l2 s1.1.2
  let s3 := sub_limb_with_borrow a.l3 b.l3 s2.1.2
  ((⟨s0.1.1, s1.1.1, s2.1.1, s3.1.1⟩, s3.1.2), s0.2 && s1.2 && s2.2 && s3.2)

-- ============= Uint256 modular inverse (uint256.rs invmod) =============

/-- The four 64-bit limbs of a natural number, truncated past 256 bits. -/
def toU256 (n : Nat) : U256 :=
  ⟨n % 2 ^ 64, n / 2 ^ 64 % 2 ^ 64, n / 2 ^ 128 % 2 ^ 64, n / 2 ^ 192 % 2 ^ 64⟩

/-- Modelled from the spec: mul_wide delegates to the backend no-carry
schoolbook product and the carry-propagation pass
(bn254fr_bigint_mul_checked_no_carry / convert_to_proper_representation,
not under src/), producing the exact 512-bit product of the two values as
properly-ranged low and high 256-bit halves. -/
def mul_wide (a b : U256) : U256 × U256 :=
  let n := a.val * b.val
  (toU256 (n % 2 ^ 256), toU256 (n / 2 ^ 256))

/-- Model of bn254fr eqz_checked: inv is the backend inverse when the low 64
bits of x are nonzero (the code branches on get_u64, which truncates), the
output is -x * inv + 1, and the run asserts x * out = 0 via assert_equal
against zero; the negmod_checked cross-check is kept. -/
def eqz_checked (x : Nat) : Nat × Bool :=
  let inv := if x % 2 ^ 64 ≠ 0 then finv x else 0
  let neg_x := fneg x
  let okNeg := decide ((0 : Nat) = fadd neg_x x)
  let out := fadd (fmul neg_x inv) 1
  let check := fmul x out
  (out, okNeg && decide (check = 0))

/-- Model of bn254fr eq_checked: eqz of the checked difference. -/
def eq_checked (a b : Nat) : Nat × Bool :=
  let s := fsub a b
  let okSub := decide (a % p = fadd s b)
  let z := eqz_checked s
  (z.1, okSub && z.2)

/-- Model of uint256 eq: limb-wise eq_checked, results multiplied together. -/
def u256_eq (x y : U256) : Nat × Bool :=
  let e0 := eq_checked x.l0 y.l0
  let e1 := eq_checked x.l1 y.l1
  let e2 := eq_checked x.l2 y.l2
  let e3 := eq_checked x.l3 y.l3
  (fmul (fmul (fmul e0.1 e1.1) e2.1) e3.1, e0.2 && e1.2 && e2.2 && e3.2)

/-- Modelled from the spec: the host routine uint512_idiv_normalized (not
under src/) performs Euclidean division of the 512-bit value by the divisor.
Model of uint512_mod: host division followed by the 64-bit range checks the
code performs on the remainder limbs (the q*m product is computed and
discarded; its verification is an explicit TODO in the code). -/
def uint512_mod (w : U256 × U256) (m : U256) : U256 × Bool :=
  let n := w.1.val + 2 ^ 256 * w.2.val
  let rU := toU256 (n % m.val)
  (rU, decide (rU.l0 < 2 ^ 64) && decide (rU.l1 < 2 ^ 64) &&
    decide (rU.l2 < 2 ^ 64) && decide (rU.l3 < 2 ^ 64))

/-- Model of uint256 invmod with the host-returned candidate passed
explicitly (the backend uint256_invmod routine is untrusted): the candidate
is multiplied by a with mul_wide, the product is reduced modulo m with
uint512_mod, and the reduced result is asserted equal to one. -/
def invmod_run (candidate a m : U256) : U256 × Bool :=
  let product := mul_wide candidate a
  let one : U256 := ⟨1, 0, 0, 0⟩
  let rm := uint512_mod product m
  let e := u256_eq rm.1 one
  (candidate, rm.2 && e.2 && decide (e.1 = 1))

-- ============= Theorems =============

theorem p_pos : 0 < p := by decide

theorem fadd_lt (a b : Nat) : fadd a b < p := Nat.mod_lt _ p_pos

theorem fsub_lt (a b : Nat) : fsub a b < p := Nat.mod_lt _ p_pos

theorem fmul_lt (a b : Nat) : fmul a b < p := Nat.mod_lt _ p_pos

theorem fneg_lt (a : Nat) : fneg a < p := Nat.mod_lt _ p_pos

theorem fdiv_lt (a b : Nat) : fdiv a b < p := fmul_lt _ _

theorem toZ_mod (a : Nat) : toZ (a % p) = toZ a := by
  simp [toZ, ZMod.natCast_mod]

theorem toZ_fadd (a b : Nat) : toZ (fadd a b) = toZ a + toZ b := by
  simp [fadd, toZ, ZMod.natCast_mod]

theorem toZ_fmul (a b : Nat) : toZ (fmul a b) = toZ a * toZ b := by
  simp [fmul, toZ, ZMod.natCast_mod]

theorem toZ_fsub (a b : Nat) : toZ (fsub a b) = toZ a - toZ b := by
  have hb : b % p ≤ p := le_of_lt (Nat.mod_lt _ p_pos)
  have : ((p - b % p : Nat) : ZMod p) = (p : ZMod p) - ((b % p : Nat) : ZMod p) :=
    Nat.cast_sub hb
  simp only [fsub, toZ, ZMod.natCast_mod, Nat.cast_add, this, ZMod.natCast_self,
    ZMod.natCast_mod]
  ring

theorem toZ_fneg (a : Nat) : toZ (fneg a) = - toZ a := by
  have ha : a % p ≤ p := le_of_lt (Nat.mod_lt _ p_pos)
  have : ((p - a % p : Nat) : ZMod p) = (p : ZMod p) - ((a % p : Nat) : ZMod p) :=
    Nat.cast_sub ha
  simp only [fneg, toZ, ZMod.natCast_mod, this, ZMod.natCast_self, ZMod.natCast_mod]
  ring

theorem toZ_inj {a b : Nat} (ha : a < p) (hb : b < p) (h : toZ a = toZ b) : a = b := by
  have va := ZMod.val_cast_of_lt ha
  have vb := ZMod.val_cast_of_lt hb
  calc a = (toZ a).val := va.symm
    _ = (toZ b).val := by rw [h]
    _ = b := vb

theorem toZ_eq_zero {a : Nat} (ha : a < p) (h : toZ a = 0) : a = 0 := by
  have : toZ a = toZ 0 := by simpa [toZ] using h
  exact toZ_inj ha p_pos this

/-- The cross-check emitted by submod_checked is identically true on values:
recomposing the difference with the subtrahend gives back the reduced minuend. -/
theorem fadd_fsub_cancel (a b : Nat) : fadd (fsub a b) b = a % p := by
  refine toZ_inj (fadd_lt _ _) (Nat.mod_lt _ p_pos) ?_
  rw [toZ_fadd, toZ_fsub, toZ_mod]
  ring

theorem fadd_fneg_cancel (a : Nat) : fadd (fneg a) a = 0 := by
  refine toZ_inj (fadd_lt _ _) p_pos ?_
  have : toZ 0 = 0 := by simp [toZ]
  rw [toZ_fadd, toZ_fneg, this]
  ring

theorem bit_le_one (x i : Nat) : bit x i ≤ 1 :=
  Nat.le_of_lt_succ (Nat.mod_lt _ (by decide))

theorem fmul_comm (a b : Nat) : fmul a b = fmul b a := by
  simp [fmul, Nat.mul_comm]

theorem mux_ok_iff (cond a0 a1 : Nat) : ((mux cond a0 a1).2 = true) ↔ cond ≤ 1 := by
  simp [mux, fadd_fsub_cancel]

theorem mux_val_one (a0 a1 : Nat) (h1 : a1 < p) : (mux 1 a0 a1).1 = a1 := by
  show fadd a0 (fmul (fsub a1 a0) 1) = a1
  refine toZ_inj (fadd_lt _ _) h1 ?_
  rw [toZ_fadd, toZ_fmul, toZ_fsub]
  have h : toZ 1 = 1 := by simp [toZ]
  rw [h]; ring

theorem mux_val_zero (a0 a1 : Nat) (h0 : a0 < p) : (mux 0 a0 a1).1 = a0 := by
  show fadd a0 (fmul (fsub a1 a0) 0) = a0
  refine toZ_inj (fadd_lt _ _) h0 ?_
  rw [toZ_fadd, toZ_fmul, toZ_fsub]
  have h : toZ 0 = 0 := by simp [toZ]
  rw [h]; ring

-- ============= C1: scalar and uint256 mux =============

/-- C1 counterexample: the claim states that mux(cond, a, b) returns the
first value argument a when cond = 1.  At cond = 1, a = 3, b = 5 the code
(out = a0 + cond * (a1 - a0)) returns 5, the second argument, and the
limb-wise uint256 mux does the same. -/
theorem mux_claim_counterexample :
    (mux 1 3 5).1 = 5 ∧ ¬ ((mux 1 3 5).1 = 3) ∧
    (u256_mux 1 ⟨3, 0, 0, 0⟩ ⟨5, 0, 0, 0⟩).1 = ⟨5, 0, 0, 0⟩ := by
  decide

/-- C1 (amended): for reduced field values, mux(cond, a, b) returns b when
cond = 1 and a when cond = 0, and the run halts exactly when cond is outside
the set 0, 1; the uint256 mux behaves the same way limb-wise. -/
theorem mux_selects (cond a0 a1 : Nat) (A B : U256)
    (h0 : a0 < p) (h1 : a1 < p)
    (hA : A.l0 < p ∧ A.l1 < p ∧ A.l2 < p ∧ A.l3 < p)
    (hB : B.l0 < p ∧ B.l1 < p ∧ B.l2 < p ∧ B.l3 < p) :
    (cond = 1 → (mux cond a0 a1).1 = a1 ∧ (u256_mux cond A B).1 = B) ∧
    (cond = 0 → (mux cond a0 a1).1 = a0 ∧ (u256_mux cond A B).1 = A) ∧
    (((mux cond a0 a1).2 = true) ↔ cond ≤ 1) ∧
    (((u256_mux cond A B).2 = true) ↔ cond ≤ 1) := by
  obtain ⟨A0, A1, A2, A3⟩ := A
  obtain ⟨B0, B1, B2, B3⟩ := B
  obtain ⟨hA0, hA1, hA2, hA3⟩ := hA
  obtain ⟨hB0, hB1, hB2, hB3⟩ := hB
  refine ⟨?_, ?_, mux_ok_iff cond a0 a1, ?_⟩
  · rintro rfl
    refine ⟨mux_val_one a0 a1 h1, ?_⟩
    simp only [u256_mux, U256.mk.injEq]
    exact ⟨mux_val_one _ _ hB0, mux_val_one _ _ hB1, mux_val_one _ _ hB2,
      mux_val_one _ _ hB3⟩
  · rintro rfl
    refine ⟨mux_val_zero a0 a1 h0, ?_⟩
    simp only [u256_mux, U256.mk.injEq]
    exact ⟨mux_val_zero _ _ hA0, mux_val_zero _ _ hA1, mux_val_zero _ _ hA2,
      mux_val_zero _ _ hA3⟩
  · simp [u256_mux, mux_ok_iff, Bool.and_eq_true, and_self]

/-- C1 witness: the amended selection behaviour at cond = 1, a = 3, b = 5. -/
theorem mux_selects_witness :
    (mux 1 3 5).1 = 5 ∧ (u256_mux 1 ⟨3, 0, 0, 0⟩ ⟨7, 0, 0, 0⟩).1 = ⟨7, 0, 0, 0⟩ := by
  have h := mux_selects 1 3 5 ⟨3, 0, 0, 0⟩ ⟨7, 0, 0, 0⟩
    (by decide) (by decide)
    ⟨by decide, by decide, by decide, by decide⟩
    ⟨by decide, by decide, by decide, by decide⟩
  exact ⟨(h.1 rfl).1, (h.1 rfl).2⟩

-- ============= C3: scalar multiplication structure =============

theorem foldl_fst {α β γ : Type} (l : List γ) (f : α × β → γ → α × β)
    (g : α → γ → α) (hfg : ∀ s i, (f s i).1 = g s.1 i) :
    ∀ s : α × β, (l.foldl f s).1 = l.foldl g s.1 := by
  induction l with
  | nil => intro s; rfl
  | cons i rest ih =>
    intro s
    rw [List.foldl_cons, List.foldl_cons, ih, hfg]

theorem trace_step_len (P : Pt) (x : Nat) (st : Pt × List (Pt × Pt)) (i : Nat) :
    ((trace_step P x st i).2).length = st.2.length + 3 := by
  simp [trace_step]

theorem foldl_trace_len (P : Pt) (x : Nat) (l : List Nat) :
    ∀ st : Pt × List (Pt × Pt),
      ((l.foldl (trace_step P x) st).2).length = st.2.length + 3 * l.length := by
  induction l with
  | nil => intro st; simp
  | cons i rest ih =>
    intro st
    rw [List.foldl_cons, ih, trace_step_len]
    simp [List.length_cons]
    ring

theorem add_trace_len (P : Pt) (x : Nat) : (add_trace P x).length = 380 := by
  have hs : smIndices.length = 126 := by decide
  unfold add_trace
  rw [foldl_trace_len, hs]
  rfl

/-- C3 counterexample: the loop of scalar_mul runs over the even indexes
0, 2, ..., 250 in reverse, which is 126 iterations, not the 127 the claim
states. -/
theorem scalar_mul_iterations_counterexample :
    smIndices.length = 126 ∧ ¬ (smIndices.length = 127) := by
  decide

/-- C3 (amended): scalar_mul decomposes the scalar into 254 bits, seeds the
accumulator from bits 252 and 253 with one 4-way selection over the window
0, P, 2P, 3P, and then performs exactly 126 loop iterations over the bit
pairs at indexes 250, 248, ..., 0 (most significant remaining pair first),
each doubling twice and adding the selected window entry; the number of
group additions executed (380) is the same for every base point and every
scalar. -/
theorem scalar_mul_structure (P Q : Pt) (x y : Nat) :
    (scalar_mul P x).1 = windowed_ladder P x ∧
    smIndices = (List.range 126).map (fun k => 250 - 2 * k) ∧
    smIndices.length = 126 ∧
    (add_trace P x).length = 380 ∧
    (add_trace P x).length = (add_trace Q y).length := by
  have hidx : smIndices = (List.range 126).map (fun k => 250 - 2 * k) := by decide
  refine ⟨?_, hidx, by decide, add_trace_len P x, ?_⟩
  · unfold scalar_mul windowed_ladder
    rw [← hidx]
    exact foldl_fst smIndices _ _ (fun s i => rfl) _
  · rw [add_trace_len, add_trace_len]

-- ============= C2: EdDSA verification =============

theorem Pt_ext_iff (a b : Pt) : a = b ↔ a.x = b.x ∧ a.y = b.y := by
  cases a
  cases b
  simp

/-- C2: verify computes S·G by a generator scalar multiplication and
challenge·PublicKey + R by twisted_edward_add, then asserts the two points
equal coordinate-wise; provided the interior checked operations succeed
(hQ names the computed point challenge·PublicKey for the statement), the run
succeeds exactly when the two resulting points agree. -/
theorem eddsa_verify_iff (r : Pt) (s : Nat) (pk : Pt) (msg : Nat) (Q : Pt)
    (hQ : (scalar_mul pk msg).1 = Q)
    (h1 : (scalar_mul generator s).2 = true)
    (h2 : (scalar_mul pk msg).2 = true)
    (h3 : (twisted_edward_add r Q).2 = true) :
    (verify r s pk msg = true) ↔
      (scalar_mul generator s).1 = (twisted_edward_add r Q).1 := by
  simp only [verify]
  rw [hQ, h1, h2, h3]
  simp [Pt_ext_iff]

/-- C2 witness: the degenerate instance with identity public key, identity
signature point and zero scalars; both ladders' interior checks succeed. -/
theorem eddsa_verify_iff_witness :
    (verify identity 0 identity 0 = true) ↔
      (scalar_mul generator 0).1 = (twisted_edward_add identity identity).1 := by
  have hc : ((scalar_mul identity 0).2 = true) ∧
      ((scalar_mul identity 0).1 = identity) := by decide
  exact eddsa_verify_iff identity 0 identity 0 identity hc.2 (by decide) hc.1
    (by decide)

-- ============= C4: curve form conversions =============

/-- C4 counterexample: the claim states that to_montgomery maps (x, y) to a
second coordinate v = (1-y)/(x*(1+y)).  At the input (1, 2) the code computes
v = (1+y)/((1-y)*x) = 3/(p-1), which differs from the claimed (p-1)/3. -/
theorem to_montgomery_claim_counterexample :
    ¬ ((to_montgomery ⟨1, 2⟩).1.y = fdiv (fsub 1 2) (fmul 1 (fadd 1 2))) := by
  decide

/-- C4 (amended): to_montgomery maps a Twisted Edwards point (x, y) to
u = (1+y)/(1-y) and v = (1+y)/(x*(1-y)), and to_twisted_edward maps a
Montgomery point (u, v) to x = u/v and y = (u-1)/(u+1). -/
theorem conversion_formulas (x y u v : Nat) :
    (to_montgomery ⟨x, y⟩).1 =
      ⟨fdiv (fadd 1 y) (fsub 1 y), fdiv (fadd 1 y) (fmul x (fsub 1 y))⟩ ∧
    (to_twisted_edward ⟨u, v⟩).1 = ⟨fdiv u v, fdiv (fsub u 1) (fadd u 1)⟩ := by
  refine ⟨?_, rfl⟩
  show (⟨fdiv (fadd 1 y) (fsub 1 y), fdiv (fadd 1 y) (fmul (fsub 1 y) x)⟩ : Pt) = _
  rw [fmul_comm (fsub 1 y) x]

-- ============= C6: bit decomposition round trip =============

theorem from_bits_core_aux (x n c : Nat) :
    ((List.range n).map (fun i => bit x i)).foldr (fun b acc => b + 2 * acc) c =
      x % 2 ^ n + 2 ^ n * c := by
  induction n generalizing c with
  | zero => simp [Nat.mod_one]
  | succ n ih =>
    rw [List.range_succ, List.map_append, List.foldr_append]
    simp only [List.map_cons, List.map_nil, List.foldr_cons, List.foldr_nil]
    rw [ih, Nat.mod_pow_succ]
    unfold bit
    ring

theorem from_bits_core_range (x n : Nat) :
    from_bits_core (to_bits_core x n) = x % 2 ^ n := by
  have h := from_bits_core_aux x n 0
  simpa [from_bits_core, to_bits_core] using h

/-- C6: for every count in [1, 254] and every field element x representable
in count bits, from_bits_checked(to_bits(x, count)) returns x, and neither
the decomposition constraint nor the boolean-ness constraints fail. -/
theorem from_bits_to_bits (count x : Nat)
    (hc1 : 1 ≤ count) (hc2 : count ≤ 254) (hx : x < 2 ^ count) :
    (from_bits_checked (to_bits x count).1).1 = x ∧
    (to_bits x count).2 = true ∧
    (from_bits_checked (to_bits x count).1).2 = true := by
  have hcond : ¬ (count < 1 ∨ 254 < count) := by omega
  have hlen : (to_bits_core x count).length = count := by
    simp [to_bits_core]
  rw [to_bits, if_neg hcond]
  simp only [from_bits_checked, hlen]
  rw [if_neg hcond]
  refine ⟨?_, by simpa using hx, ?_⟩
  · rw [from_bits_core_range]
    exact Nat.mod_eq_of_lt hx
  · simp only [List.all_eq_true, to_bits_core, List.mem_map, List.mem_range,
      decide_eq_true_eq]
    rintro b ⟨i, _, rfl⟩
    exact bit_le_one x i

/-- C6 witness: round trip at count = 3, x = 5. -/
theorem from_bits_to_bits_witness :
    (from_bits_checked (to_bits 5 3).1).1 = 5 ∧ (to_bits 5 3).2 = true :=
  ⟨(from_bits_to_bits 3 5 (by decide) (by decide) (by decide)).1,
   (from_bits_to_bits 3 5 (by decide) (by decide) (by decide)).2.1⟩

-- ============= C7: Poseidon2 permutation structure =============

theorem foldl_funext {α γ : Type} (l : List γ) (f g : α → γ → α)
    (h : ∀ a i, f a i = g a i) : ∀ a, l.foldl f a = l.foldl g a := by
  induction l with
  | nil => intro a; rfl
  | cons i rest ih => intro a; rw [List.foldl_cons, List.foldl_cons, h, ih]

theorem fpowAux_lt (fuel : Nat) :
    ∀ b e acc : Nat, acc < p → fpowAux fuel b e acc < p := by
  induction fuel with
  | zero => intro b e acc h; simpa [fpowAux] using h
  | succ fuel ih =>
    intro b e acc h
    simp only [fpowAux]
    split
    · exact h
    · apply ih
      split
      · exact fmul_lt _ _
      · exact h

theorem toZ_fpowAux (fuel : Nat) :
    ∀ b e acc : Nat, e < 2 ^ fuel →
      toZ (fpowAux fuel b e acc) = toZ acc * toZ b ^ e := by
  induction fuel with
  | zero =>
    intro b e acc he
    interval_cases e
    simp [fpowAux]
  | succ fuel ih =>
    intro b e acc he
    by_cases h0 : e = 0
    · subst h0; simp [fpowAux]
    · have hdiv : e / 2 < 2 ^ fuel := by
        rw [Nat.div_lt_iff_lt_mul (by norm_num)]
        calc e < 2 ^ (fuel + 1) := he
          _ = 2 ^ fuel * 2 := by ring
      simp only [fpowAux, if_neg h0]
      rw [ih _ _ _ hdiv, toZ_fmul]
      have hsq : (toZ b * toZ b) ^ (e / 2) = toZ b ^ (2 * (e / 2)) := by
        rw [← pow_two, ← pow_mul]
      by_cases hodd : e % 2 = 1
      · have he2 : 2 * (e / 2) + 1 = e := by omega
        have hbe : toZ b ^ e = toZ b ^ (2 * (e / 2) + 1) := by rw [he2]
        rw [if_pos hodd, toZ_fmul, hsq, hbe]
        ring
      · have he2 : 2 * (e / 2) = e := by omega
        have hbe : toZ b ^ e = toZ b ^ (2 * (e / 2)) := by rw [he2]
        rw [if_neg hodd, hsq, hbe]

theorem pow5_eq_fpow (x : Nat) : pow5 x = fpow x 5 := by
  refine toZ_inj (fmul_lt _ _) (fpowAux_lt _ _ _ _ (by decide)) ?_
  show _ = toZ (fpowAux 256 (x % p) 5 1)
  rw [toZ_fpowAux _ _ _ _ (by norm_num), toZ_mod]
  unfold pow5
  simp only [toZ_fmul]
  have h1 : toZ 1 = 1 := by simp [toZ]
  rw [h1]
  ring

theorem ext_mds_matrix (s : Nat × Nat) : multiply_external_mds s = external_matrix s := by
  have h2 : toZ 2 = 2 := by simp [toZ]
  unfold multiply_external_mds external_matrix
  simp only [Prod.mk.injEq]
  constructor
  · exact toZ_inj (fadd_lt _ _) (fadd_lt _ _)
      (by rw [toZ_fadd, toZ_fadd, toZ_fadd, toZ_fmul, h2]; ring)
  · exact toZ_inj (fadd_lt _ _) (fadd_lt _ _)
      (by rw [toZ_fadd, toZ_fadd, toZ_fadd, toZ_fmul, h2]; ring)

theorem int_mds_matrix (s : Nat × Nat) : multiply_internal_mds s = internal_matrix s := by
  have h2 : toZ 2 = 2 := by simp [toZ]
  have h3 : toZ 3 = 3 := by simp [toZ]
  unfold multiply_internal_mds internal_matrix
  simp only [Prod.mk.injEq]
  constructor
  · exact toZ_inj (fadd_lt _ _) (fadd_lt _ _)
      (by rw [toZ_fadd, toZ_fadd, toZ_fadd, toZ_fmul, h2]; ring)
  · exact toZ_inj (fadd_lt _ _) (fadd_lt _ _)
      (by rw [toZ_fadd, toZ_fadd, toZ_fadd, toZ_fadd, toZ_fmul, h3]; ring)

theorem full_round_matrix (rc : Nat → Nat) (r : Nat) (s : Nat × Nat) :
    full_round rc r s = claim_full_round rc r s := by
  unfold full_round claim_full_round sbox_full add_round_constants
  rw [ext_mds_matrix, pow5_eq_fpow, pow5_eq_fpow]

theorem partial_round_matrix (rc : Nat → Nat) (r : Nat) (s : Nat × Nat) :
    partial_round rc r s = claim_partial_round rc r s := by
  unfold partial_round claim_partial_round sbox_slot0 add_round_constants_slot0
  rw [int_mds_matrix, pow5_eq_fpow]

/-- C7 counterexample: the claim says the permutation consists of exactly
the three round phases with no other linear layer, but the code multiplies
the state by the external MDS matrix once before the first full round;
already on the all-zero constant table and state (1, 2) the two disagree. -/
theorem permute_claim_counterexample :
    ¬ (permute rc_zero (1, 2) = claim_permute rc_zero (1, 2)) := by
  decide

/-- C7 (amended): each permutation invocation consists of an initial
multiplication of the state by the external matrix 2 1 / 1 2, then 4 full
rounds (constants on both slots, 5th power on both slots, external matrix),
then R_P = 56 partial rounds (constant on slot 0, 5th power on slot 0,
internal matrix 2 1 / 1 3), then 4 more full rounds, and no other linear
layer. -/
theorem permute_structure (rc : Nat → Nat) (s : Nat × Nat) :
    permute rc s = claim_permute rc (external_matrix s) ∧
    POSEIDON2_BN254_RP = 56 := by
  refine ⟨?_, rfl⟩
  simp only [permute, claim_permute]
  rw [ext_mds_matrix]
  rw [foldl_funext _ _ _ (fun a i => full_round_matrix rc i a)]
  rw [foldl_funext _ _ _ (fun a i => partial_round_matrix rc (4 + i) a)]
  rw [foldl_funext _ _ _ (fun a i => full_round_matrix rc (4 + POSEIDON2_BN254_RP + i) a)]
  rfl

-- ============= C8: add_cc / sub_cc round trip =============

theorem fadd_small (a b : Nat) (h : a + b < p) : fadd a b = a + b := by
  simp [fadd, Nat.mod_eq_of_lt h]

theorem fsub_small (a b : Nat) (hba : b ≤ a) (ha : a < p) : fsub a b = a - b := by
  have hb : b % p = b := Nat.mod_eq_of_lt (lt_of_le_of_lt hba ha)
  have hbp : b ≤ p := le_of_lt (lt_of_le_of_lt hba ha)
  rw [fsub, hb]
  have h1 : a + (p - b) = (a - b) + p := by omega
  rw [h1, Nat.add_mod_right]
  exact Nat.mod_eq_of_lt (by omega)

theorem to_bits_in_range (x count : Nat) (h1 : 1 ≤ count) (h2 : count ≤ 254) :
    to_bits x count = (to_bits_core x count, decide (x < 2 ^ count)) := by
  rw [to_bits, if_neg (by omega)]

theorem from_bits_in_range (l : List Nat) (h1 : 1 ≤ l.length) (h2 : l.length ≤ 254) :
    from_bits_checked l = (from_bits_core l, l.all fun b => decide (b ≤ 1)) := by
  rw [from_bits_checked, if_neg (by omega)]

theorem bits_all_le (x n : Nat) :
    ((to_bits_core x n).all fun b => decide (b ≤ 1)) = true := by
  simp only [to_bits_core, List.all_eq_true, List.mem_map, List.mem_range,
    decide_eq_true_eq]
  rintro b ⟨i, _, rfl⟩
  exact bit_le_one x i

theorem take_bits (x : Nat) : (to_bits_core x 65).take 64 = to_bits_core x 64 := by
  simp only [to_bits_core, ← List.map_take, List.take_range]
  norm_num

theorem bits_getD (x n i : Nat) (h : i < n) :
    (to_bits_core x n).getD i 0 = bit x i := by
  simp [to_bits_core, List.getD, List.getElem?_map, List.getElem?_range h]

theorem from_bits_checked_core (y n : Nat) (h1 : 1 ≤ n) (h2 : n ≤ 254) :
    from_bits_checked (to_bits_core y n) = (y % 2 ^ n, true) := by
  rw [from_bits_checked, if_neg (by simp [to_bits_core]; omega),
    from_bits_core_range, bits_all_le]

theorem add_limb_spec (a b cin : Nat)
    (ha : a < 2 ^ 64) (hb : b < 2 ^ 64) (hc : cin ≤ 1) :
    add_limb_with_carry a b cin =
      (((a + b + cin) % 2 ^ 64, (a + b + cin) / 2 ^ 64), true) := by
  have e64 : (2:Nat) ^ 64 = 18446744073709551616 := by norm_num
  have e65 : (2:Nat) ^ 65 = 36893488147419103232 := by norm_num
  have hpbig : (36893488147419103232 : Nat) < p := by decide
  rw [e64] at ha hb
  have hp1 : a + b < p := by omega
  have hp2 : a + b + cin < p := by omega
  have hlt : a + b + cin < 2 ^ 65 := by rw [e65]; omega
  have hs : fadd (fadd a b) cin = a + b + cin := by
    rw [fadd_small _ _ hp1, fadd_small _ _ hp2]
  have hbit : bit (a + b + cin) 64 = (a + b + cin) / 2 ^ 64 := by
    have hd : (a + b + cin) / 2 ^ 64 < 2 := by
      rw [Nat.div_lt_iff_lt_mul (by positivity)]
      rw [e64]; omega
    unfold bit
    exact Nat.mod_eq_of_lt hd
  simp only [add_limb_with_carry, hs,
    to_bits_in_range _ 65 (by norm_num) (by norm_num)]
  rw [take_bits, from_bits_checked_core _ _ (by norm_num) (by norm_num),
    bits_getD _ _ _ (by norm_num), hbit]
  simp only [Prod.mk.injEq]
  refine ⟨trivial, ?_⟩
  rw [decide_eq_true hlt]
  rfl

theorem sub_limb_spec (a b bin : Nat)
    (ha : a < 2 ^ 64) (hb : b < 2 ^ 64) (hbin : bin ≤ 1) :
    sub_limb_with_borrow a b bin =
      (((2 ^ 64 + a - b - bin) % 2 ^ 64, 1 - (2 ^ 64 + a - b - bin) / 2 ^ 64), true) := by
  have e64 : (2:Nat) ^ 64 = 18446744073709551616 := by norm_num
  have e65 : (2:Nat) ^ 65 = 36893488147419103232 := by norm_num
  have hpbig : (36893488147419103232 : Nat) < p := by decide
  have ha64 := ha
  rw [e64] at ha64
  have hb64 := hb
  rw [e64] at hb64
  have hv0 : fadd two_pow_64 a = 2 ^ 64 + a := by
    rw [fadd_small, two_pow_64, e64]
    rw [two_pow_64]; omega
  have hv1 : fsub (2 ^ 64 + a) b = 2 ^ 64 + a - b := by
    rw [fsub_small _ _ (by omega) (by rw [e64]; omega)]
  have hv2 : fsub (2 ^ 64 + a - b) bin = 2 ^ 64 + a - b - bin := by
    rw [fsub_small _ _ (by rw [e64] at *; omega) (by rw [e64] at *; omega)]
  have hlt : 2 ^ 64 + a - b - bin < 2 ^ 65 := by rw [e64, e65] at *; omega
  have hble := bit_le_one (2 ^ 64 + a - b - bin) 64
  have hbit : bit (2 ^ 64 + a - b - bin) 64 = (2 ^ 64 + a - b - bin) / 2 ^ 64 := by
    have hd : (2 ^ 64 + a - b - bin) / 2 ^ 64 < 2 := by
      rw [Nat.div_lt_iff_lt_mul (by positivity)]
      rw [e64] at *; omega
    unfold bit
    exact Nat.mod_eq_of_lt hd
  have hbor : fsub 1 (bit (2 ^ 64 + a - b - bin) 64) =
      1 - (2 ^ 64 + a - b - bin) / 2 ^ 64 := by
    rw [fsub_small _ _ hble (by decide), hbit]
  have hxap : 2 ^ 64 + a < p := by omega
  have hxbp : 2 ^ 64 + a - b < p := by omega
  have hok1 : (2 ^ 64 + a) % p = fadd (2 ^ 64 + a - b) b := by
    rw [Nat.mod_eq_of_lt hxap, fadd_small _ _ (by omega)]
    omega
  have hok2 : (2 ^ 64 + a - b) % p = fadd (2 ^ 64 + a - b - bin) bin := by
    rw [Nat.mod_eq_of_lt hxbp, fadd_small _ _ (by omega)]
    omega
  have hok3 : 1 % p = fadd (1 - (2 ^ 64 + a - b - bin) / 2 ^ 64)
      (bit (2 ^ 64 + a - b - bin) 64) := by
    rw [fadd_small _ _ (by omega), hbit, Nat.mod_eq_of_lt (by decide : (1:Nat) < p)]
    rw [hbit] at hble
    omega
  simp only [sub_limb_with_borrow, hv0, hv1, hv2,
    to_bits_in_range _ 65 (by norm_num) (by norm_num)]
  rw [take_bits, from_bits_checked_core _ _ (by norm_num) (by norm_num),
    bits_getD _ _ _ (by norm_num), hbor]
  simp only [Prod.mk.injEq]
  refine ⟨trivial, ?_⟩
  rw [decide_eq_true hok1, decide_eq_true hok2, decide_eq_true hok3,
    decide_eq_true hlt]
  rfl

theorem U256_val_lt (u : U256) (h : u.inRange) : u.val < 2 ^ 256 := by
  obtain ⟨h0, h1, h2, h3⟩ := h
  have e64 : (2:Nat) ^ 64 = 18446744073709551616 := by norm_num
  have e128 : (2:Nat) ^ 128 = 340282366920938463463374607431768211456 := by norm_num
  have e192 : (2:Nat) ^ 192 =
    6277101735386680763835789423207666416102355444464034512896 := by norm_num
  have e256 : (2:Nat) ^ 256 =
    115792089237316195423570985008687907853269984665640564039457584007913129639936 := by
    norm_num
  simp only [U256.val]
  omega

theorem add_cc_spec (a b : U256) (hA : a.inRange) (hB : b.inRange) :
    (add_cc a b).1.1.val + 2 ^ 256 * (add_cc a b).1.2 = a.val + b.val ∧
    (add_cc a b).1.1.inRange ∧ (add_cc a b).1.2 ≤ 1 ∧ (add_cc a b).2 = true := by
  obtain ⟨hA0, hA1, hA2, hA3⟩ := hA
  obtain ⟨hB0, hB1, hB2, hB3⟩ := hB
  have e64 : (2:Nat) ^ 64 = 18446744073709551616 := by norm_num
  have e65 : (2:Nat) ^ 65 = 36893488147419103232 := by norm_num
  have e128 : (2:Nat) ^ 128 = 340282366920938463463374607431768211456 := by norm_num
  have e192 : (2:Nat) ^ 192 =
    6277101735386680763835789423207666416102355444464034512896 := by norm_num
  have e256 : (2:Nat) ^ 256 =
    115792089237316195423570985008687907853269984665640564039457584007913129639936 := by
    norm_num
  have h0 := add_limb_spec a.l0 b.l0 0 hA0 hB0 (by omega)
  have hc0 : (a.l0 + b.l0 + 0) / 2 ^ 64 ≤ 1 := by rw [e64] at *; omega
  have h1 := add_limb_spec a.l1 b.l1 _ hA1 hB1 hc0
  have hc1 : (a.l1 + b.l1 + (a.l0 + b.l0 + 0) / 2 ^ 64) / 2 ^ 64 ≤ 1 := by
    rw [e64] at *; omega
  have h2 := add_limb_spec a.l2 b.l2 _ hA2 hB2 hc1
  have hc2 : (a.l2 + b.l2 + (a.l1 + b.l1 + (a.l0 + b.l0 + 0) / 2 ^ 64) / 2 ^ 64) / 2 ^ 64
      ≤ 1 := by rw [e64] at *; omega
  have h3 := add_limb_spec a.l3 b.l3 _ hA3 hB3 hc2
  simp only [add_cc]
  rw [h0, h1, h2, h3]
  simp only [U256.val, U256.inRange]
  simp only [e64, e128, e192, e256]
  rw [e64] at hA0 hA1 hA2 hA3 hB0 hB1 hB2 hB3
  refine ⟨by omega, ⟨by omega, by omega, by omega, by omega⟩, by omega, by decide⟩

theorem sub_cc_spec (a b : U256) (hA : a.inRange) (hB : b.inRange) :
    (sub_cc a b).1.1.val + b.val = a.val + 2 ^ 256 * (sub_cc a b).1.2 ∧
    (sub_cc a b).1.1.inRange ∧ (sub_cc a b).1.2 ≤ 1 ∧ (sub_cc a b).2 = true := by
  obtain ⟨hA0, hA1, hA2, hA3⟩ := hA
  obtain ⟨hB0, hB1, hB2, hB3⟩ := hB
  have e64 : (2:Nat) ^ 64 = 18446744073709551616 := by norm_num
  have e65 : (2:Nat) ^ 65 = 36893488147419103232 := by norm_num
  have e128 : (2:Nat) ^ 128 = 340282366920938463463374607431768211456 := by norm_num
  have e192 : (2:Nat) ^ 192 =
    6277101735386680763835789423207666416102355444464034512896 := by norm_num
  have e256 : (2:Nat) ^ 256 =
    115792089237316195423570985008687907853269984665640564039457584007913129639936 := by
    norm_num
  have h0 := sub_limb_spec a.l0 b.l0 0 hA0 hB0 (by omega)
  have h1 := sub_limb_spec a.l1 b.l1 (1 - (2 ^ 64 + a.l0 - b.l0 - 0) / 2 ^ 64)
    hA1 hB1 (by omega)
  have h2 := sub_limb_spec a.l2 b.l2
    (1 - (2 ^ 64 + a.l1 - b.l1 - (1 - (2 ^ 64 + a.l0 - b.l0 - 0) / 2 ^ 64)) / 2 ^ 64)
    hA2 hB2 (by omega)
  have h3 := sub_limb_spec a.l3 b.l3
    (1 - (2 ^ 64 + a.l2 - b.l2 -
      (1 - (2 ^ 64 + a.l1 - b.l1 - (1 - (2 ^ 64 + a.l0 - b.l0 - 0) / 2 ^ 64)) / 2 ^ 64))
      / 2 ^ 64)
    hA3 hB3 (by omega)
  simp only [sub_cc]
  rw [h0, h1, h2, h3]
  simp only [U256.val, U256.inRange]
  simp only [e64, e128, e192, e256]
  rw [e64] at hA0 hA1 hA2 hA3 hB0 hB1 hB2 hB3
  refine ⟨by omega, ⟨by omega, by omega, by omega, by omega⟩, by omega, by decide⟩

/-- C8 counterexample: at a = 2^256 - 1, b = 1 the addition wraps; the
subtraction recovers the value of a but returns borrow 1, not the zero
borrow the claim states. -/
theorem add_sub_claim_counterexample :
    ¬ ((sub_cc (add_cc
        ⟨18446744073709551615, 18446744073709551615, 18446744073709551615,
          18446744073709551615⟩ ⟨1, 0, 0, 0⟩).1.1 ⟨1, 0, 0, 0⟩).1.2 = 0) := by
  decide

/-- C8 (amended): for all range-checked a and b, sub_cc(add_cc(a,b).val, b)
returns the value of a, and its borrow equals the carry of the addition
(zero exactly when the addition did not wrap past 2^256); no constraint
emitted along the way fails. -/
theorem sub_cc_add_cc (a b : U256) (hA : a.inRange) (hB : b.inRange) :
    (sub_cc (add_cc a b).1.1 b).1.1.val = a.val ∧
    (sub_cc (add_cc a b).1.1 b).1.2 = (add_cc a b).1.2 ∧
    (sub_cc (add_cc a b).1.1 b).2 = true ∧
    (add_cc a b).2 = true := by
  obtain ⟨hadd, haddR, haddC, haddOk⟩ := add_cc_spec a b hA hB
  obtain ⟨hsub, hsubR, hsubC, hsubOk⟩ := sub_cc_spec (add_cc a b).1.1 b haddR hB
  have hAv := U256_val_lt a hA
  have hBv := U256_val_lt b hB
  have hCv := U256_val_lt _ haddR
  have hDv := U256_val_lt _ hsubR
  refine ⟨?_, ?_, hsubOk, haddOk⟩ <;> omega

/-- C8 witness: the amended round trip at a = 5, b = 7. -/
theorem sub_cc_add_cc_witness :
    (sub_cc (add_cc ⟨5, 0, 0, 0⟩ ⟨7, 0, 0, 0⟩).1.1 ⟨7, 0, 0, 0⟩).1.1.val =
      U256.val ⟨5, 0, 0, 0⟩ :=
  (sub_cc_add_cc ⟨5, 0, 0, 0⟩ ⟨7, 0, 0, 0⟩
    ⟨by decide, by decide, by decide, by decide⟩
    ⟨by decide, by decide, by decide, by decide⟩).1

-- ============= C5: invmod re-verification =============

theorem toU256_val (n : Nat) (h : n < 2 ^ 256) : (toU256 n).val = n := by
  simp only [toU256, U256.val]
  omega

theorem eqz_check_zero (x : Nat) (hchk : (eqz_checked x).2 = true) :
    toZ x * toZ (eqz_checked x).1 = 0 := by
  have h2 : (eqz_checked x).2 =
      (decide ((0 : Nat) = fadd (fneg x) x) &&
        decide (fmul x (eqz_checked x).1 = 0)) := rfl
  rw [h2, Bool.and_eq_true, decide_eq_true_eq, decide_eq_true_eq] at hchk
  have h := congrArg toZ hchk.2
  rw [toZ_fmul] at h
  have h0Z : toZ 0 = 0 := by simp [toZ]
  rw [h0Z] at h
  exact h

theorem u256_eq_one (x y : U256)
    (hx : x.l0 < p ∧ x.l1 < p ∧ x.l2 < p ∧ x.l3 < p)
    (hy : y.l0 < p ∧ y.l1 < p ∧ y.l2 < p ∧ y.l3 < p)
    (hok : (u256_eq x y).2 = true)
    (hval : (u256_eq x y).1 = 1) : x = y := by
  simp only [u256_eq, eq_checked, Bool.and_eq_true] at hok
  obtain ⟨⟨⟨⟨h0s, h0z⟩, h1s, h1z⟩, h2s, h2z⟩, h3s, h3z⟩ := hok
  simp only [u256_eq, eq_checked] at hval
  have hpi := congrArg toZ hval
  simp only [toZ_fmul] at hpi
  have h1Z : toZ 1 = 1 := by simp [toZ]
  rw [h1Z] at hpi
  have hz0 := eqz_check_zero _ h0z
  have hz1 := eqz_check_zero _ h1z
  have hz2 := eqz_check_zero _ h2z
  have hz3 := eqz_check_zero _ h3z
  have hd0 : fsub x.l0 y.l0 = 0 := by
    apply toZ_eq_zero (fsub_lt _ _)
    calc toZ (fsub x.l0 y.l0)
        = toZ (fsub x.l0 y.l0) *
          (toZ (eqz_checked (fsub x.l0 y.l0)).1 * toZ (eqz_checked (fsub x.l1 y.l1)).1 *
            toZ (eqz_checked (fsub x.l2 y.l2)).1 * toZ (eqz_checked (fsub x.l3 y.l3)).1) := by
          rw [hpi, mul_one]
      _ = (toZ (fsub x.l0 y.l0) * toZ (eqz_checked (fsub x.l0 y.l0)).1) *
          (toZ (eqz_checked (fsub x.l1 y.l1)).1 * toZ (eqz_checked (fsub x.l2 y.l2)).1 *
            toZ (eqz_checked (fsub x.l3 y.l3)).1) := by ring
      _ = 0 := by rw [hz0, zero_mul]
  have hd1 : fsub x.l1 y.l1 = 0 := by
    apply toZ_eq_zero (fsub_lt _ _)
    calc toZ (fsub x.l1 y.l1)
        = toZ (fsub x.l1 y.l1) *
          (toZ (eqz_checked (fsub x.l0 y.l0)).1 * toZ (eqz_checked (fsub x.l1 y.l1)).1 *
            toZ (eqz_checked (fsub x.l2 y.l2)).1 * toZ (eqz_checked (fsub x.l3 y.l3)).1) := by
          rw [hpi, mul_one]
      _ = (toZ (fsub x.l1 y.l1) * toZ (eqz_checked (fsub x.l1 y.l1)).1) *
          (toZ (eqz_checked (fsub x.l0 y.l0)).1 * toZ (eqz_checked (fsub x.l2 y.l2)).1 *
            toZ (eqz_checked (fsub x.l3 y.l3)).1) := by ring
      _ = 0 := by rw [hz1, zero_mul]
  have hd2 : fsub x.l2 y.l2 = 0 := by
    apply toZ_eq_zero (fsub_lt _ _)
    calc toZ (fsub x.l2 y.l2)
        = toZ (fsub x.l2 y.l2) *
          (toZ (eqz_checked (fsub x.l0 y.l0)).1 * toZ (eqz_checked (fsub x.l1 y.l1)).1 *
            toZ (eqz_checked (fsub x.l2 y.l2)).1 * toZ (eqz_checked (fsub x.l3 y.l3)).1) := by
          rw [hpi, mul_one]
      _ = (toZ (fsub x.l2 y.l2) * toZ (eqz_checked (fsub x.l2 y.l2)).1) *
          (toZ (eqz_checked (fsub x.l0 y.l0)).1 * toZ (eqz_checked (fsub x.l1 y.l1)).1 *
            toZ (eqz_checked (fsub x.l3 y.l3)).1) := by ring
      _ = 0 := by rw [hz2, zero_mul]
  have hd3 : fsub x.l3 y.l3 = 0 := by
    apply toZ_eq_zero (fsub_lt _ _)
    calc toZ (fsub x.l3 y.l3)
        = toZ (fsub x.l3 y.l3) *
          (toZ (eqz_checked (fsub x.l0 y.l0)).1 * toZ (eqz_checked (fsub x.l1 y.l1)).1 *
            toZ (eqz_checked (fsub x.l2 y.l2)).1 * toZ (eqz_checked (fsub x.l3 y.l3)).1) := by
          rw [hpi, mul_one]
      _ = (toZ (fsub x.l3 y.l3) * toZ (eqz_checked (fsub x.l3 y.l3)).1) *
          (toZ (eqz_checked (fsub x.l0 y.l0)).1 * toZ (eqz_checked (fsub x.l1 y.l1)).1 *
            toZ (eqz_checked (fsub x.l2 y.l2)).1) := by ring
      _ = 0 := by rw [hz3, zero_mul]
  have hl0 : x.l0 = y.l0 := by
    apply toZ_inj hx.1 hy.1
    have h := congrArg toZ hd0
    rw [toZ_fsub] at h
    have h0Z : toZ 0 = 0 := by simp [toZ]
    rw [h0Z] at h
    exact sub_eq_zero.mp h
  have hl1 : x.l1 = y.l1 := by
    apply toZ_inj hx.2.1 hy.2.1
    have h := congrArg toZ hd1
    rw [toZ_fsub] at h
    have h0Z : toZ 0 = 0 := by simp [toZ]
    rw [h0Z] at h
    exact sub_eq_zero.mp h
  have hl2 : x.l2 = y.l2 := by
    apply toZ_inj hx.2.2.1 hy.2.2.1
    have h := congrArg toZ hd2
    rw [toZ_fsub] at h
    have h0Z : toZ 0 = 0 := by simp [toZ]
    rw [h0Z] at h
    exact sub_eq_zero.mp h
  have hl3 : x.l3 = y.l3 := by
    apply toZ_inj hx.2.2.2 hy.2.2.2
    have h := congrArg toZ hd3
    rw [toZ_fsub] at h
    have h0Z : toZ 0 = 0 := by simp [toZ]
    rw [h0Z] at h
    exact sub_eq_zero.mp h
  cases x
  cases y
  simp_all

/-- C5: whatever candidate the untrusted backend modular-inverse routine
returns, the run's constraints are satisfied only if candidate * a reduces
to 1 modulo m: an incorrect candidate makes an emitted assertion fail. -/
theorem invmod_asserts_inverse (candidate a m : U256)
    (hc : candidate.inRange) (ha : a.inRange) (hm : m.inRange) (hm0 : 0 < m.val)
    (hok : (invmod_run candidate a m).2 = true) :
    candidate.val * a.val % m.val = 1 := by
  have hmv := U256_val_lt m hm
  have hcv := U256_val_lt candidate hc
  have hav := U256_val_lt a ha
  have hN : candidate.val * a.val < 2 ^ 512 := by
    calc candidate.val * a.val < 2 ^ 256 * 2 ^ 256 :=
          Nat.mul_lt_mul_of_lt_of_lt hcv hav
      _ = 2 ^ 512 := by norm_num
  have hr : (uint512_mod (mul_wide candidate a) m).1 =
      toU256 (candidate.val * a.val % m.val) := by
    simp only [uint512_mod, mul_wide]
    congr 1
    rw [toU256_val _ (by omega), toU256_val _ (by omega)]
    congr 1
    omega
  simp only [invmod_run, Bool.and_eq_true] at hok
  obtain ⟨⟨hrng, he⟩, hf⟩ := hok
  rw [hr] at he hf
  have hrlt : candidate.val * a.val % m.val < 2 ^ 256 :=
    lt_of_lt_of_le (Nat.mod_lt _ hm0) (le_of_lt hmv)
  have h64p : (18446744073709551616 : Nat) < p := by decide
  have hlimb : ∀ k : Nat, k % 2 ^ 64 < p := by
    intro k
    have := Nat.mod_lt k (y := 2 ^ 64) (by positivity)
    omega
  have heq := u256_eq_one (toU256 (candidate.val * a.val % m.val)) ⟨1, 0, 0, 0⟩
    ⟨hlimb _, hlimb _, hlimb _, hlimb _⟩
    ⟨by decide, by decide, by decide, by decide⟩
    he (of_decide_eq_true hf)
  have hcomp := congrArg U256.val heq
  rw [toU256_val _ hrlt] at hcomp
  simpa [U256.val] using hcomp

/-- C5 witness: candidate 2 for a = 3 modulo m = 5 satisfies the emitted
constraints and indeed 2 * 3 = 1 (mod 5). -/
theorem invmod_asserts_inverse_witness :
    U256.val ⟨2, 0, 0, 0⟩ * U256.val ⟨3, 0, 0, 0⟩ % U256.val ⟨5, 0, 0, 0⟩ = 1 :=
  invmod_asserts_inverse ⟨2, 0, 0, 0⟩ ⟨3, 0, 0, 0⟩ ⟨5, 0, 0, 0⟩
    ⟨by decide, by decide, by decide, by decide⟩
    ⟨by decide, by decide, by decide, by decide⟩
    ⟨by decide, by decide, by decide, by decide⟩
    (by decide) (by decide)

-- ============= C9: raw operations never overwrite a bound slot =============

theorem st_read_alloc (s : BackendSt) (h : Nat) (hh : h < s.next) :
    st_read (st_alloc s).2 h = st_read s h := by
  have : h ≠ s.next := Nat.ne_of_lt hh
  simp [st_alloc, st_read, this]

theorem st_read_write_self (s : BackendSt) (h : Nat) (v : Nat) :
    st_read (st_write s h v) h = v := by
  simp [st_write, st_read]

theorem st_read_free_other (s : BackendSt) (h h2 : Nat) (hne : h2 ≠ h) :
    st_read (st_free s h) h2 = st_read s h2 := by
  simp [st_free, st_read, hne]

/-- C9: a raw (non-checked) binary or unary operation into a bound
destination allocates a fresh temporary, performs its single value write
into that temporary (never into the old destination slot), swaps the
temporary's handle into the destination and leaves the destination fresh;
into a fresh destination it writes directly and in place. -/
theorem raw_op_bound_destination (op : Nat → Nat → Nat) (op1 : Nat → Nat)
    (s : BackendSt) (out a b : Elem)
    (hout : out.handle < s.next) (ha : a.handle < s.next) (hb : b.handle < s.next) :
    (out.constrained = true →
      (bn254fr_binary op s out a b).2.constrained = false ∧
      (bn254fr_binary op s out a b).2.handle = s.next ∧
      s.next ≠ out.handle ∧
      (bn254fr_binary op s out a b).1.writes =
        s.writes ++ [(s.next, op (st_read s a.handle) (st_read s b.handle))] ∧
      st_read (bn254fr_binary op s out a b).1 s.next =
        op (st_read s a.handle) (st_read s b.handle) ∧
      (bn254fr_unary op1 s out a).2.constrained = false ∧
      (bn254fr_unary op1 s out a).2.handle = s.next ∧
      (bn254fr_unary op1 s out a).1.writes =
        s.writes ++ [(s.next, op1 (st_read s a.handle))]) ∧
    (out.constrained = false →
      (bn254fr_binary op s out a b).2 = out ∧
      (bn254fr_binary op s out a b).1.next = s.next ∧
      (bn254fr_binary op s out a b).1.writes =
        s.writes ++ [(out.handle, op (st_read s a.handle) (st_read s b.handle))] ∧
      (bn254fr_unary op1 s out a).2 = out ∧
      (bn254fr_unary op1 s out a).1.writes =
        s.writes ++ [(out.handle, op1 (st_read s a.handle))]) := by
  have hne : s.next ≠ out.handle := (Nat.ne_of_lt hout).symm
  have hna := Nat.ne_of_lt ha
  have hnb := Nat.ne_of_lt hb
  constructor
  · intro hc
    simp [bn254fr_binary, bn254fr_unary, hc, st_alloc, st_write, st_free,
      st_read, hne, hna, hnb]
  · intro hc
    simp [bn254fr_binary, bn254fr_unary, hc, st_write]

/-- C9 witness: concrete two-slot store, bound destination sharing slot 0
with operand a, operand b in slot 1. -/
theorem raw_op_bound_destination_witness :
    (bn254fr_binary fadd ⟨2, fun h => if h = 0 then some 5 else
        if h = 1 then some 7 else none, []⟩ ⟨0, true⟩ ⟨0, true⟩ ⟨1, false⟩).2.constrained
      = false ∧
    (bn254fr_binary fadd ⟨2, fun h => if h = 0 then some 5 else
        if h = 1 then some 7 else none, []⟩ ⟨0, true⟩ ⟨0, true⟩ ⟨1, false⟩).2.handle = 2 := by
  have h := raw_op_bound_destination fadd fneg
    ⟨2, fun h => if h = 0 then some 5 else if h = 1 then some 7 else none, []⟩
    ⟨0, true⟩ ⟨0, true⟩ ⟨1, false⟩ (by decide) (by decide) (by decide)
  exact ⟨(h.1 rfl).1, (h.1 rfl).2.1⟩

-- ============= C10: vector mux performs no boolean check =============

theorem zipWith_lane_select (cond a0 a1 : List Nat) :
    List.zipWith fadd a0 (List.zipWith fmul cond (List.zipWith fsub a1 a0)) =
      zipWith3 lane_select cond a0 a1 := by
  induction cond generalizing a0 a1 with
  | nil => cases a0 <;> cases a1 <;> simp [zipWith3]
  | cons c cs ih =>
    cases a0 with
    | nil => cases a1 <;> simp [zipWith3]
    | cons x xs =>
      cases a1 with
      | nil => simp [zipWith3]
      | cons y ys => simp [zipWith3, lane_select, ih]

/-- C10: mux_vec and mux2_vec perform no boolean-ness assertion on their
selectors: for every selector vector, including lanes outside 0 and 1, the
run never halts and each lane receives a0 + cond * (a1 - a0); the scalar mux,
in contrast, halts on the selector value 2. -/
theorem mux_vec_unchecked (cond a0 a1 s0 s1 a2 a3 : List Nat) (x y : Nat) :
    (mux_vec cond a0 a1).2 = true ∧
    (mux_vec cond a0 a1).1 = zipWith3 lane_select cond a0 a1 ∧
    (mux2_vec s0 s1 a0 a1 a2 a3).2 = true ∧
    (mux 2 x y).2 = false := by
  refine ⟨rfl, ?_, rfl, ?_⟩
  · simpa [mux_vec, addmod_vec, mulmod_vec, submod_vec] using
      zipWith_lane_select cond a0 a1
  · simp [mux]

end Ligero
